import Mathlib

/-
Verification of the activity-import (backward history reconstruction) core of
the metrique repository, src/src/metrique/metrique/cube_api.py.

Shallow embedding conventions:
- Instants on the shared timeline are modelled as integers (Time).  The
  conversions ts2dt and dt2ts of metriqueu.utils are order preserving
  bijections between the raw-timestamp axis and the datetime axis; we model
  both axes by the same integers.  What matters for control flow is that a
  raw timestamp or None stored in a document is never Python-equal to a
  datetime object: the loop test last_doc[_end] == when (a datetime) is
  False on any document end that did not come from the loop itself.  The
  EndVal type therefore keeps the three cases apart: null (Python None),
  ts (a raw stored timestamp) and dt (a datetime written by the loop).
- Field values are scalars (None, int, str) or flat lists of scalars, the
  shapes activity data takes in this code.  Python equality between values
  of different shapes is False, which the derived decidable equality on
  Value reproduces.
- A Python dict document is a structure: the reserved keys _oid, _id,
  _start, _end, _corrupted are structure fields, the cube fields live in an
  association list.  The membership test act[1] in time_doc is membership
  in that association list.
- Fallible Python code (list.pop on an empty list, KeyError on a missing
  field, TypeError or AttributeError when the list-undo branch receives a
  non-list current value) is modelled with Except String.
-/

namespace Metrique

abbrev Time := Int

/-- Scalar field values: Python None, int and str. -/
inductive Prim where
  | pnone : Prim
  | pint : Int → Prim
  | pstr : String → Prim
deriving DecidableEq

/-- Field values: a scalar or a flat list of scalars.  Derived decidable
equality reproduces Python equality on these shapes: values of different
shapes compare unequal. -/
inductive Value where
  | prim : Prim → Value
  | vlist : List Prim → Value
deriving DecidableEq

/-- Models isinstance(x, list). -/
def Value.isList : Value → Bool
  | .vlist _ => true
  | _ => false

/-- The _end entry of a version document: Python None, a raw stored
timestamp, or a datetime object written by the reconstruction loop.  The
three constructors are pairwise unequal, as the corresponding Python values
are under ==. -/
inductive EndVal where
  | null : EndVal
  | ts : Time → EndVal
  | dt : Time → EndVal
deriving DecidableEq

/-- A version document.  Reserved dict keys are structure fields; the cube
fields are an association list (first binding of a key wins, as in a dict
where each key is stored once).  _corrupted empty models the key being
absent. -/
structure Doc where
  _oid : Int
  _id : Option Int
  _start : Time
  _end : EndVal
  fields : List (String × Value)
  _corrupted : List (String × Value)
deriving DecidableEq

/-- An activity record (when, field, removed, added). -/
structure Act where
  when : Time
  field : String
  removed : Value
  added : Value
deriving DecidableEq

/-- Dict lookup in the cube-field association list. -/
def lookupF (k : String) : List (String × Value) → Option Value
  | [] => none
  | (k2, v) :: rest => if k2 = k then some v else lookupF k rest

/-- Dict assignment in the cube-field association list: replace the binding
in place when the key is present, append it otherwise. -/
def setF (k : String) (v : Value) : List (String × Value) → List (String × Value)
  | [] => [(k, v)]
  | (k2, v2) :: rest => if k2 = k then (k2, v) :: rest else (k2, v2) :: setF k v rest

/-- Models Python list.remove: delete the first occurrence of x. -/
def removeFirst (x : Prim) : List Prim → List Prim
  | [] => []
  | y :: ys => if y = x then ys else y :: removeFirst x ys

/-- Direct translation of _activity_backwards (cube_api.py lines 358-371).
When both removed and added are lists, the current value is treated as a
collection (empty when None); each element of added is removed once when
present, otherwise the inconsistency flag is set; then removed is appended.
A non-list, non-None current value makes the Python loop raise (TypeError on
the in test for an int, AttributeError on remove or extend for a str), which
the error case models.  Otherwise the scalar branch returns removed with the
flag set iff the current value differs from added. -/
def _activity_backwards (val removed added : Value) : Except String (Value × Bool) :=
  match removed, added with
  | Value.vlist rl, Value.vlist al =>
    let val2 := if val = Value.prim Prim.pnone then Value.vlist [] else val
    match val2 with
    | Value.vlist vl =>
      let p := al.foldl
        (fun (p : List Prim × Bool) ad =>
          if ad ∈ p.1 then (removeFirst ad p.1, p.2) else (p.1, true))
        (vl, false)
      Except.ok (Value.vlist (p.1 ++ rl), p.2)
    | _ => Except.error "TypeError: argument of type int is not iterable"
  | _, _ => Except.ok (removed, decide (val ≠ added))

/-- Application of the undo result to the amended document (cube_api.py
lines 324-338): write the undone value into the field and, on an
inconsistency, record the added value under _corrupted for that field. -/
def applyUndo (a : Act) (new0 : Doc) (newVal : Value) (incon : Bool) : Doc :=
  let new1 := { new0 with fields := setF a.field newVal new0.fields }
  if incon then { new1 with _corrupted := setF a.field a.added new1._corrupted }
  else new1

/-- Shared tail of the loop body: read the current field value of the
document being amended (KeyError when absent), undo the recorded change with
_activity_backwards, apply the result, and push the newer document and the
amended one back (cube_api.py lines 321-341). -/
def stepUndo (a : Act) (new0 last1 : Doc) (older : List Doc) : Except String (List Doc) :=
  match lookupF a.field new0.fields with
  | none => Except.error "KeyError"
  | some cur =>
    match _activity_backwards cur a.removed a.added with
    | Except.error e => Except.error e
    | Except.ok (newVal, incon) => Except.ok (applyUndo a new0 newVal incon :: last1 :: older)

/-- One iteration of the reconstruction loop body (cube_api.py lines
306-341).  The batch is kept reversed with respect to the Python list, so
the Python append/pop at the right end are cons/uncons at the head here; the
head of the stack is the oldest version built so far.  The merge test
last_doc[_end] == when compares a datetime, hence only matches an end the
loop itself wrote (EndVal.dt): in that case the head is amended in place and
the document below it is popped as the newer neighbour.  Otherwise a copy
without the store id is created with start and end at when, and the popped
document keeps everything but its start, lowered to when.  The last_val read
of the Python code is only used for logging and is not modelled. -/
def stepAct (stk : List Doc) (a : Act) : Except String (List Doc) :=
  match stk with
  | [] => Except.error "IndexError: pop from empty list"
  | last0 :: rest0 =>
    if last0._end = EndVal.dt a.when then
      match rest0 with
      | [] => Except.error "IndexError: pop from empty list"
      | l2 :: rest2 => stepUndo a last0 l2 rest2
    else
      stepUndo a { last0 with _id := none, _start := a.when, _end := EndVal.dt a.when }
        { last0 with _start := a.when } rest0

/-- Runs the reconstruction loop over the prepared activity list. -/
def runActs : List Act → List Doc → Except String (List Doc)
  | [], stk => Except.ok stk
  | a :: rest, stk =>
    match stepAct stk a with
    | Except.error e => Except.error e
    | Except.ok stk2 => runActs rest stk2

/-- Stable insertion of an activity into a list kept weakly descending by
when. -/
def insertDesc (a : Act) : List Act → List Act
  | [] => [a]
  | b :: bs => if b.when < a.when then a :: b :: bs else b :: insertDesc a bs

/-- Models sorted(activities, reverse=True) as far as the when component is
concerned.  The Python sort compares the full (when, field, removed, added)
tuples; only the weakly-descending-by-when shape of the result is relevant
to the properties proved below, and the invariant lemmas are established
for every weakly descending order, covering whatever tie order the tuple
comparison produces. -/
def sortActsDesc (l : List Act) : List Act := l.foldr insertDesc []

/-- The filter and sort applied to the activity list on entry (cube_api.py
lines 302-305): keep activities strictly before the original document start
whose field is present in the document, most recent first. -/
def relevantActs (d : Doc) (activities : List Act) : List Act :=
  sortActsDesc (activities.filter
    (fun a => decide (a.when < d._start) && (lookupF a.field d.fields).isSome))

/-- Modelled from the spec: the creation-instant lookup of cube_api.py lines
346-347, creation_ts = ts2dt(last_doc[get_property(cfield)]).  get_property
and ts2dt live in the metrique base-cube and metriqueu modules, which are
not under src/; per spec section 4.3 step 5 and section 6, the lookup either
yields an instant or is absent.  The cfield argument is the cube-level
property (none when the cube defines no creation field); none as a result
collects every Python exception path of those two lines (missing property,
missing document key, unparseable value). -/
def getCreation (cfield : Option String) (d : Doc) : Option Time :=
  match cfield with
  | none => none
  | some cf =>
    match lookupF cf d.fields with
    | some (Value.prim (Prim.pint t)) => some t
    | _ => none

/-- The creation-time adjustment and empty-batch decision (cube_api.py lines
342-355), acting on the reversed batch (head = oldest version,
batch_updates[-1] in the Python list).  When the creation instant is
available and earlier than the oldest start, that start is extended
backward; otherwise, when the batch still holds a single document, an empty
batch is returned; any exception in the lookup is caught and the batch is
returned as built.  The returned list is reversed back to the Python order
(newest version first). -/
def creationStep (cfield : Option String) (stk : List Doc) : Except String (List Doc) :=
  match stk with
  | [] => Except.error "IndexError: list index out of range"
  | last :: rest =>
    match getCreation cfield last with
    | some t =>
      if t < last._start then Except.ok (({ last with _start := t } :: rest).reverse)
      else if rest.isEmpty then Except.ok []
      else Except.ok ((last :: rest).reverse)
    | none => Except.ok ((last :: rest).reverse)

/-- Direct translation of _activity_import_doc (cube_api.py lines 293-355):
filter and sort the activities, run the backward loop starting from the
batch [time_doc], then apply the creation-time step.  The result list is in
the Python batch order, newest version first. -/
def _activity_import_doc (cfield : Option String) (time_doc : Doc) (activities : List Act) :
    Except String (List Doc) :=
  match runActs (relevantActs time_doc activities) [time_doc] with
  | Except.error e => Except.error e
  | Except.ok stk => creationStep cfield stk

/-- Translation of the per-chunk loop of _activity_import (cube_api.py lines
277-290): for each anchor document, pop its store id, reconstruct, and when
the produced batch is non-empty record the popped id for removal and the
batch for saving.  The store round trips (find, activity_get, cube_remove,
cube_save) and the logging are outside the model; the function returns the
pair (remove_ids, save_objects) handed to cube_remove and cube_save.  The
acts argument maps an oid to its activity list. -/
def _activity_import (cfield : Option String) (docs : List Doc) (acts : Int → List Act) :
    Except String (List Int × List Doc) :=
  match docs with
  | [] => Except.ok ([], [])
  | d :: rest =>
    match d._id with
    | none => Except.error "KeyError: _id"
    | some i =>
      match _activity_import_doc cfield { d with _id := none } (acts d._oid) with
      | Except.error e => Except.error e
      | Except.ok updates =>
        match _activity_import cfield rest acts with
        | Except.error e => Except.error e
        | Except.ok (rids, saves) =>
          if updates.isEmpty then Except.ok (rids, saves)
          else Except.ok (i :: rids, updates ++ saves)

/-- A document as loaded from the backing store: its _end is None or a raw
timestamp, never a datetime object created by the reconstruction loop (the
EndVal.dt constructor exists only to mark ends the loop itself wrote). -/
def anchorOk (d : Doc) : Prop := ∀ t : Time, d._end ≠ EndVal.dt t

/-- Adjacency relation of the reconstructed chain, oldest first: the older
document ends (with a loop-written datetime) exactly where the newer one
starts. -/
def docLe (x y : Doc) : Prop := x._end = EndVal.dt y._start ∧ x._start ≤ y._start

/-- The two documents track the same set of cube fields. -/
def SameKeys (d e : Doc) : Prop :=
  ∀ f : String, (lookupF f e.fields).isSome = (lookupF f d.fields).isSome

/-- Invariant of the reconstruction stack (reversed batch, head = oldest).
Either nothing has been split yet and the stack is exactly the anchor, or
the stack has at least two documents, the head is the degenerate newest
split with start and datetime end both at the bound (the when of the last
processed activity), the chain relation holds along the stack, and the tail
end of the stack is the anchor with a possibly lowered start. -/
def StkInv (D : Doc) (bnd : Time) (stk : List Doc) : Prop :=
  (stk = [D] ∧ bnd = D._start) ∨
  (∃ hd tl s, stk = hd :: tl ∧ tl ≠ [] ∧
    hd._start = bnd ∧ hd._end = EndVal.dt bnd ∧
    List.Chain' docLe stk ∧
    stk.getLast? = some { D with _start := s } ∧ s ≤ D._start)

/-- Transcription of the list case of the undo function as the spec words it
(spec section 4.3a): treat the current value as a collection, for each
element of added remove one occurrence when present and otherwise mark
inconsistent, then append every element of removed; used to compare the
source translation against the spec wording. -/
def undoListSpec (cur removed added : List Prim) : List Prim × Bool :=
  let p := added.foldl
    (fun (p : List Prim × Bool) ad =>
      if ad ∈ p.1 then (removeFirst ad p.1, p.2) else (p.1, true))
    (cur, false)
  (p.1 ++ removed, p.2)

/-- Shorthand for an int field value. -/
def vint (n : Int) : Value := Value.prim (Prim.pint n)

/-- Shorthand for a str field value. -/
def vstr (s : String) : Value := Value.prim (Prim.pstr s)

/-- Anchor document of the end-to-end scenario of C1: oid 1, start 200, end
None, fields status: open. -/
def c1doc : Doc := ⟨1, none, 200, EndVal.null, [("status", vstr "open")], []⟩

/-- Activity list of the end-to-end scenario of C1. -/
def c1acts : List Act := [⟨150, "status", vstr "new", vstr "open"⟩]

/-- Newest document actually returned in the C1 scenario: the anchor with
its start lowered to 150. -/
def c1outNewer : Doc := ⟨1, none, 150, EndVal.null, [("status", vstr "open")], []⟩

/-- Older document actually returned in the C1 scenario: the degenerate
[150, 150) stub holding the undone value. -/
def c1outOlder : Doc := ⟨1, none, 150, EndVal.dt 150, [("status", vstr "new")], []⟩

/-- Concrete anchor used to witness the partition invariant. -/
def c2doc : Doc := ⟨1, none, 300, EndVal.ts 500, [("s", vint 3)], []⟩

/-- Concrete activity list used to witness the partition invariant. -/
def c2acts : List Act := [⟨200, "s", vint 2, vint 3⟩, ⟨100, "s", vint 1, vint 2⟩]

/-- Batch produced for c2doc and c2acts, newest first. -/
def c2out : List Doc :=
  [⟨1, none, 200, EndVal.ts 500, [("s", vint 3)], []⟩,
   ⟨1, none, 100, EndVal.dt 200, [("s", vint 2)], []⟩,
   ⟨1, none, 100, EndVal.dt 100, [("s", vint 1)], []⟩]

/-- Anchor with a parseable creation field, used to witness idempotence. -/
def c3doc : Doc := ⟨1, none, 100, EndVal.null, [("created", vint 50)], []⟩

/-- First-run output for c3doc: the anchor with its start extended to the
creation instant. -/
def c3out : Doc := ⟨1, none, 50, EndVal.null, [("created", vint 50)], []⟩

/-- Anchor without a creation field and without a store id, used for the C3
counterexample and C10. -/
def c10doc : Doc := ⟨1, none, 100, EndVal.null, [("x", vint 1)], []⟩

/-- Anchor for the corrupted-marking scenario of C4: scalar status 5. -/
def c4doc : Doc := ⟨1, none, 200, EndVal.null, [("status", vint 5)], []⟩

/-- Activity whose added value 7 disagrees with the snapshot value 5. -/
def c4acts : List Act := [⟨150, "status", vint 3, vint 7⟩]

/-- Batch produced for c4doc and c4acts: the older document holds the undone
value 3 and carries _corrupted status 7. -/
def c4out : List Doc :=
  [⟨1, none, 150, EndVal.null, [("status", vint 5)], []⟩,
   ⟨1, none, 150, EndVal.dt 150, [("status", vint 3)], [("status", vint 7)]⟩]

/-- Anchor with two fields, used for the simultaneous-activity merge. -/
def c6doc : Doc := ⟨2, none, 300, EndVal.ts 400, [("a", vint 10), ("b", vint 20)], []⟩

/-- Two activities on different fields with the identical instant 100. -/
def c6acts : List Act := [⟨100, "a", vint 9, vint 10⟩, ⟨100, "b", vint 19, vint 20⟩]

/-- Batch produced for c6doc and c6acts: one additional version boundary at
100, both undone fields collapsed into a single older document. -/
def c6out : List Doc :=
  [⟨2, none, 100, EndVal.ts 400, [("a", vint 10), ("b", vint 20)], []⟩,
   ⟨2, none, 100, EndVal.dt 100, [("a", vint 9), ("b", vint 19)], []⟩]

/-- Anchor of the creation-instant extension scenario of C7: start 100,
creation field value 50, zero matching activities. -/
def c7doc : Doc := ⟨1, none, 100, EndVal.null, [("created", vint 50), ("status", vint 1)], []⟩

/-- Anchor carrying a store id, used for the id-stripping scenario of C8. -/
def c8doc : Doc := ⟨1, some 42, 200, EndVal.null, [("status", vstr "open")], []⟩

/-- Activity list of the C8 scenario. -/
def c8acts : List Act := [⟨150, "status", vstr "new", vstr "open"⟩]

/-- Saved batch of the C8 scenario: both entries, the anchor segment
included, carry no store id. -/
def c8out : List Doc :=
  [⟨1, none, 150, EndVal.null, [("status", vstr "open")], []⟩,
   ⟨1, none, 150, EndVal.dt 150, [("status", vstr "new")], []⟩]

theorem applyUndo_start (a : Act) (d : Doc) (v : Value) (i : Bool) :
    (applyUndo a d v i)._start = d._start := by
  unfold applyUndo; dsimp only; split <;> rfl

theorem applyUndo_end (a : Act) (d : Doc) (v : Value) (i : Bool) :
    (applyUndo a d v i)._end = d._end := by
  unfold applyUndo; dsimp only; split <;> rfl

theorem applyUndo_id (a : Act) (d : Doc) (v : Value) (i : Bool) :
    (applyUndo a d v i)._id = d._id := by
  unfold applyUndo; dsimp only; split <;> rfl

theorem applyUndo_oid (a : Act) (d : Doc) (v : Value) (i : Bool) :
    (applyUndo a d v i)._oid = d._oid := by
  unfold applyUndo; dsimp only; split <;> rfl

theorem applyUndo_fields (a : Act) (d : Doc) (v : Value) (i : Bool) :
    (applyUndo a d v i).fields = setF a.field v d.fields := by
  unfold applyUndo; dsimp only; split <;> rfl

theorem doc_set_start_self (d : Doc) : { d with _start := d._start } = d := rfl

theorem doc_set_id_none (d : Doc) (h : d._id = none) : { d with _id := none } = d := by
  cases d; simp_all

theorem lookupF_setF_self (k : String) (v : Value) (fs : List (String × Value)) :
    lookupF k (setF k v fs) = some v := by
  induction fs with
  | nil => simp [setF, lookupF]
  | cons p rest ih =>
    obtain ⟨k2, v2⟩ := p
    by_cases h : k2 = k
    · simp [setF, lookupF, h]
    · simp [setF, lookupF, h, ih]

theorem lookupF_setF_ne (k : String) (v : Value) (f : String) (fs : List (String × Value))
    (h : f ≠ k) : lookupF f (setF k v fs) = lookupF f fs := by
  induction fs with
  | nil =>
    simp only [setF, lookupF]
    rw [if_neg (Ne.symm h)]
  | cons p rest ih =>
    obtain ⟨k2, v2⟩ := p
    by_cases h2 : k2 = k
    · subst h2
      simp only [setF, if_pos rfl, lookupF]
      rw [if_neg (Ne.symm h), if_neg (Ne.symm h)]
    · simp only [setF, if_neg h2, lookupF]
      by_cases h3 : k2 = f
      · simp [h3]
      · simp [h3, ih]

theorem stepUndo_ok (a : Act) (new0 last1 : Doc) (older stk2 : List Doc)
    (h : stepUndo a new0 last1 older = Except.ok stk2) :
    ∃ cur newVal incon, lookupF a.field new0.fields = some cur ∧
      _activity_backwards cur a.removed a.added = Except.ok (newVal, incon) ∧
      stk2 = applyUndo a new0 newVal incon :: last1 :: older := by
  unfold stepUndo at h
  cases hl : lookupF a.field new0.fields with
  | none => simp only [hl] at h; exact Except.noConfusion h
  | some cur =>
    simp only [hl] at h
    cases hb : _activity_backwards cur a.removed a.added with
    | error e => simp only [hb] at h; exact Except.noConfusion h
    | ok p =>
      obtain ⟨newVal, incon⟩ := p
      simp only [hb, Except.ok.injEq] at h
      exact ⟨cur, newVal, incon, rfl, hb, h.symm⟩

theorem stepAct_ok (stk : List Doc) (a : Act) (stk2 : List Doc)
    (h : stepAct stk a = Except.ok stk2) :
    ∃ last0 rest0, stk = last0 :: rest0 ∧
      ((∃ l2 rest2, last0._end = EndVal.dt a.when ∧ rest0 = l2 :: rest2 ∧
          stepUndo a last0 l2 rest2 = Except.ok stk2) ∨
       (last0._end ≠ EndVal.dt a.when ∧
          stepUndo a { last0 with _id := none, _start := a.when, _end := EndVal.dt a.when }
            { last0 with _start := a.when } rest0 = Except.ok stk2)) := by
  cases stk with
  | nil => exact absurd h (by simp [stepAct])
  | cons last0 rest0 =>
    refine ⟨last0, rest0, rfl, ?_⟩
    simp only [stepAct] at h
    by_cases he : last0._end = EndVal.dt a.when
    · rw [if_pos he] at h
      cases rest0 with
      | nil => simp at h
      | cons l2 rest2 => exact Or.inl ⟨l2, rest2, he, rfl, h⟩
    · rw [if_neg he] at h
      exact Or.inr ⟨he, h⟩

theorem runActs_cons_ok (a : Act) (rest : List Act) (stk out : List Doc)
    (h : runActs (a :: rest) stk = Except.ok out) :
    ∃ stk1, stepAct stk a = Except.ok stk1 ∧ runActs rest stk1 = Except.ok out := by
  unfold runActs at h
  cases hs : stepAct stk a with
  | error e => rw [hs] at h; exact absurd h (by simp)
  | ok stk1 => rw [hs] at h; exact ⟨stk1, rfl, h⟩

theorem mem_insertDesc (a b : Act) (l : List Act) :
    b ∈ insertDesc a l ↔ b = a ∨ b ∈ l := by
  induction l with
  | nil => simp [insertDesc]
  | cons c cs ih =>
    unfold insertDesc
    by_cases h : c.when < a.when
    · rw [if_pos h]; simp
    · rw [if_neg h]
      simp only [List.mem_cons, ih]
      tauto

theorem pairwise_insertDesc (a : Act) (l : List Act)
    (h : List.Pairwise (fun x y : Act => y.when ≤ x.when) l) :
    List.Pairwise (fun x y : Act => y.when ≤ x.when) (insertDesc a l) := by
  induction l with
  | nil => simp [insertDesc]
  | cons c cs ih =>
    unfold insertDesc
    by_cases hc : c.when < a.when
    · rw [if_pos hc]
      refine List.Pairwise.cons ?_ h
      intro x hx
      rcases List.mem_cons.mp hx with rfl | hx
      · exact le_of_lt hc
      · exact le_trans (List.rel_of_pairwise_cons h hx) (le_of_lt hc)
    · rw [if_neg hc]
      refine List.Pairwise.cons ?_ (ih (List.Pairwise.of_cons h))
      intro x hx
      rcases (mem_insertDesc a x cs).mp hx with rfl | hx
      · exact not_lt.mp hc
      · exact List.rel_of_pairwise_cons h hx

theorem mem_sortActsDesc (b : Act) (l : List Act) : b ∈ sortActsDesc l ↔ b ∈ l := by
  induction l with
  | nil => simp [sortActsDesc]
  | cons c cs ih =>
    unfold sortActsDesc at ih ⊢
    simp only [List.foldr_cons, mem_insertDesc, ih, List.mem_cons]

theorem pairwise_sortActsDesc (l : List Act) :
    List.Pairwise (fun x y : Act => y.when ≤ x.when) (sortActsDesc l) := by
  induction l with
  | nil => simp [sortActsDesc]
  | cons c cs ih =>
    unfold sortActsDesc at ih ⊢
    simpa using pairwise_insertDesc c _ ih

theorem relevantActs_mem (d : Doc) (A : List Act) (a : Act) (h : a ∈ relevantActs d A) :
    a ∈ A ∧ a.when < d._start ∧ (lookupF a.field d.fields).isSome = true := by
  unfold relevantActs at h
  have h2 := (mem_sortActsDesc a _).mp h
  have h3 := List.mem_filter.mp h2
  refine ⟨h3.1, ?_, ?_⟩
  · have := h3.2
    simp only [Bool.and_eq_true, decide_eq_true_eq] at this
    exact this.1
  · have := h3.2
    simp only [Bool.and_eq_true, decide_eq_true_eq] at this
    exact this.2

theorem relevantActs_nil (d : Doc) (A : List Act)
    (h : ∀ a ∈ A, ¬(a.when < d._start ∧ (lookupF a.field d.fields).isSome = true)) :
    relevantActs d A = [] := by
  unfold relevantActs
  have hf : A.filter
      (fun a => decide (a.when < d._start) && (lookupF a.field d.fields).isSome) = [] := by
    rw [List.filter_eq_nil_iff]
    intro a ha
    have := h a ha
    intro hcon
    simp only [Bool.and_eq_true, decide_eq_true_eq] at hcon
    exact this hcon
  rw [hf]
  rfl

theorem applyUndo_sameKeys (D : Doc) (a : Act) (d : Doc) (v : Value) (i : Bool)
    (h : SameKeys D d) (hcur : (lookupF a.field d.fields).isSome = true) :
    SameKeys D (applyUndo a d v i) := by
  intro f
  rw [applyUndo_fields]
  by_cases hf : f = a.field
  · subst hf
    rw [lookupF_setF_self]
    exact ((h a.field).symm.trans hcur).symm
  · rw [lookupF_setF_ne a.field v f d.fields hf]
    exact h f

theorem stepUndo_keys (D : Doc) (a : Act) (new0 last1 : Doc) (older stk2 : List Doc)
    (h : stepUndo a new0 last1 older = Except.ok stk2)
    (h0 : SameKeys D new0) (h1 : SameKeys D last1) (h2 : ∀ d ∈ older, SameKeys D d) :
    ∀ d ∈ stk2, SameKeys D d := by
  obtain ⟨cur, nv, inc, hl, hb, rfl⟩ := stepUndo_ok a new0 last1 older stk2 h
  intro d hd
  rcases List.mem_cons.mp hd with rfl | hd
  · exact applyUndo_sameKeys D a new0 nv inc h0 (by rw [hl]; rfl)
  rcases List.mem_cons.mp hd with rfl | hd
  · exact h1
  · exact h2 d hd

theorem stepAct_keys (D : Doc) (stk stk2 : List Doc) (a : Act)
    (h : stepAct stk a = Except.ok stk2) (hk : ∀ d ∈ stk, SameKeys D d) :
    ∀ d ∈ stk2, SameKeys D d := by
  obtain ⟨last0, rest0, rfl, hbr⟩ := stepAct_ok _ a stk2 h
  rcases hbr with ⟨l2, rest2, he, hr, hs⟩ | ⟨hne, hs⟩
  · subst hr
    exact stepUndo_keys D a last0 l2 rest2 stk2 hs (hk _ (by simp)) (hk _ (by simp))
      (fun d hd => hk d (by simp [hd]))
  · exact stepUndo_keys D a _ _ rest0 stk2 hs (hk last0 (by simp)) (hk last0 (by simp))
      (fun d hd => hk d (by simp [hd]))

theorem stepAct_ids (stk stk2 : List Doc) (a : Act)
    (h : stepAct stk a = Except.ok stk2) (hi : ∀ d ∈ stk, d._id = none) :
    ∀ d ∈ stk2, d._id = none := by
  obtain ⟨last0, rest0, rfl, hbr⟩ := stepAct_ok _ a stk2 h
  rcases hbr with ⟨l2, rest2, he, hr, hs⟩ | ⟨hne, hs⟩
  · subst hr
    obtain ⟨cur, nv, inc, hl, hb, rfl⟩ := stepUndo_ok _ _ _ _ _ hs
    intro d hd
    simp only [List.mem_cons] at hd
    rcases hd with rfl | rfl | hd
    · rw [applyUndo_id]; exact hi _ (by simp)
    · exact hi _ (by simp)
    · exact hi _ (by simp [hd])
  · obtain ⟨cur, nv, inc, hl, hb, rfl⟩ := stepUndo_ok _ _ _ _ _ hs
    intro d hd
    simp only [List.mem_cons] at hd
    rcases hd with rfl | rfl | hd
    · rw [applyUndo_id]
    · exact hi last0 (by simp)
    · exact hi _ (by simp [hd])

theorem runActs_keys (D : Doc) (acts : List Act) : ∀ (stk stk2 : List Doc),
    runActs acts stk = Except.ok stk2 → (∀ d ∈ stk, SameKeys D d) →
    ∀ d ∈ stk2, SameKeys D d := by
  induction acts with
  | nil =>
    intro stk stk2 h hk
    simp only [runActs, Except.ok.injEq] at h
    exact h ▸ hk
  | cons a rest ih =>
    intro stk stk2 h hk
    obtain ⟨stk1, h1, h2⟩ := runActs_cons_ok a rest stk stk2 h
    exact ih stk1 stk2 h2 (stepAct_keys D stk stk1 a h1 hk)

theorem runActs_ids (acts : List Act) : ∀ (stk stk2 : List Doc),
    runActs acts stk = Except.ok stk2 → (∀ d ∈ stk, d._id = none) →
    ∀ d ∈ stk2, d._id = none := by
  induction acts with
  | nil =>
    intro stk stk2 h hk
    simp only [runActs, Except.ok.injEq] at h
    exact h ▸ hk
  | cons a rest ih =>
    intro stk stk2 h hk
    obtain ⟨stk1, h1, h2⟩ := runActs_cons_ok a rest stk stk2 h
    exact ih stk1 stk2 h2 (stepAct_ids stk stk1 a h1 hk)

theorem stepAct_inv (D : Doc) (bnd : Time) (stk stk2 : List Doc) (a : Act)
    (hinv : StkInv D bnd stk) (hw : a.when ≤ bnd) (hwD : a.when < D._start)
    (hok : stepAct stk a = Except.ok stk2) : StkInv D a.when stk2 := by
  obtain ⟨last0, rest0, hstk, hbr⟩ := stepAct_ok stk a stk2 hok
  rcases hinv with ⟨h1, h2⟩ | ⟨hd, tl, s, hstk0, htl, hhs, hhe, hch, hgl, hs⟩
  · rw [h1] at hstk
    injection hstk with e1 e2
    subst e1
    rcases hbr with ⟨l2, rest2, he, hr, hs2⟩ | ⟨hne, hs2⟩
    · rw [← e2] at hr
      exact absurd hr (by simp)
    · obtain ⟨cur, nv, inc, hl, hb, rfl⟩ := stepUndo_ok _ _ _ _ _ hs2
      rw [← e2]
      refine Or.inr ⟨_, _, a.when, rfl, by simp, ?_, ?_, ?_, ?_, le_of_lt hwD⟩
      · rw [applyUndo_start]
      · rw [applyUndo_end]
      · refine List.chain'_cons.mpr ⟨⟨?_, ?_⟩, List.chain'_singleton _⟩
        · rw [applyUndo_end]
        · rw [applyUndo_start]
      · rfl
  · subst hstk0
    obtain ⟨l2, rest2, rfl⟩ := List.exists_cons_of_ne_nil htl
    injection hstk with e1 e2
    subst e1
    subst e2
    have hle := List.chain'_cons.mp hch
    rcases hbr with ⟨l2b, rest2b, he, hr, hs2⟩ | ⟨hne, hs2⟩
    · -- merge case: the head is amended in place
      injection hr with e3 e4
      subst e3
      subst e4
      have hbe : bnd = a.when := EndVal.dt.inj (hhe.symm.trans he)
      obtain ⟨cur, nv, inc, hl, hb, rfl⟩ := stepUndo_ok _ _ _ _ _ hs2
      refine Or.inr ⟨_, _, s, rfl, by simp, ?_, ?_, ?_, ?_, hs⟩
      · rw [applyUndo_start, hhs, hbe]
      · rw [applyUndo_end, hhe, hbe]
      · refine List.chain'_cons.mpr ⟨⟨?_, ?_⟩, hle.2⟩
        · rw [applyUndo_end]; exact hle.1.1
        · rw [applyUndo_start]; exact hle.1.2
      · rw [List.getLast?_cons_cons]
        rw [List.getLast?_cons_cons] at hgl
        exact hgl
    · -- split case: a fresh degenerate version is pushed
      obtain ⟨cur, nv, inc, hl, hb, rfl⟩ := stepUndo_ok _ _ _ _ _ hs2
      have hl2s : l2._start = bnd := by
        have h3 := hle.1.1
        rw [hhe] at h3
        exact (EndVal.dt.inj h3).symm
      refine Or.inr ⟨_, _, s, rfl, by simp, ?_, ?_, ?_, ?_, hs⟩
      · rw [applyUndo_start]
      · rw [applyUndo_end]
      · refine List.chain'_cons.mpr ⟨⟨?_, ?_⟩, List.chain'_cons.mpr ⟨⟨?_, ?_⟩, hle.2⟩⟩
        · rw [applyUndo_end]
        · rw [applyUndo_start]
        · exact hle.1.1
        · show a.when ≤ l2._start
          rw [hl2s]
          exact hw
      · rw [List.getLast?_cons_cons, List.getLast?_cons_cons]
        rw [List.getLast?_cons_cons] at hgl
        exact hgl

theorem runActs_inv (D : Doc) (acts : List Act) : ∀ (bnd : Time) (stk stk2 : List Doc),
    StkInv D bnd stk →
    List.Pairwise (fun x y : Act => y.when ≤ x.when) acts →
    (∀ a ∈ acts, a.when ≤ bnd ∧ a.when < D._start) →
    runActs acts stk = Except.ok stk2 →
    ∃ bnd2, StkInv D bnd2 stk2 ∧ bnd2 ≤ bnd ∧ ∀ a ∈ acts, bnd2 ≤ a.when := by
  induction acts with
  | nil =>
    intro bnd stk stk2 hinv hp hb h
    simp only [runActs, Except.ok.injEq] at h
    exact ⟨bnd, h ▸ hinv, le_refl bnd, by simp⟩
  | cons a rest ih =>
    intro bnd stk stk2 hinv hp hb h
    obtain ⟨stk1, h1, h2⟩ := runActs_cons_ok a rest stk stk2 h
    have hb1 := hb a (by simp)
    have hinv1 := stepAct_inv D bnd stk stk1 a hinv hb1.1 hb1.2 h1
    obtain ⟨bnd2, hinv2, hle2, hall2⟩ := ih a.when stk1 stk2 hinv1 (List.Pairwise.of_cons hp)
      (fun x hx => ⟨List.rel_of_pairwise_cons hp hx, (hb x (by simp [hx])).2⟩) h2
    refine ⟨bnd2, hinv2, le_trans hle2 hb1.1, ?_⟩
    intro x hx
    rcases List.mem_cons.mp hx with rfl | hx
    · exact hle2
    · exact hall2 x hx

theorem creationStep_ok (cfield : Option String) (stk b : List Doc)
    (h : creationStep cfield stk = Except.ok b) (hne : b ≠ []) :
    ∃ last0 rest, stk = last0 :: rest ∧
      ((∃ t, getCreation cfield last0 = some t ∧ t < last0._start ∧
          b = ({ last0 with _start := t } :: rest).reverse) ∨
       (((∃ t, getCreation cfield last0 = some t ∧ ¬ t < last0._start ∧ rest ≠ []) ∨
          getCreation cfield last0 = none) ∧ b = (last0 :: rest).reverse)) := by
  cases stk with
  | nil => exact absurd h (by simp [creationStep])
  | cons last0 rest =>
    refine ⟨last0, rest, rfl, ?_⟩
    simp only [creationStep] at h
    cases hg : getCreation cfield last0 with
    | none =>
      simp only [hg, Except.ok.injEq] at h
      exact Or.inr ⟨Or.inr rfl, h.symm⟩
    | some t =>
      simp only [hg] at h
      by_cases hlt : t < last0._start
      · rw [if_pos hlt] at h
        exact Or.inl ⟨t, rfl, hlt, (Except.ok.inj h).symm⟩
      · rw [if_neg hlt] at h
        cases rest with
        | nil => simp at h; exact absurd h hne
        | cons r rs =>
          simp only [List.isEmpty_cons, if_neg] at h
          refine Or.inr ⟨Or.inl ⟨t, rfl, hlt, by simp⟩, ?_⟩
          exact (Except.ok.inj h).symm

theorem chain'_start_pairwise : ∀ (l : List Doc),
    List.Chain' (fun x y : Doc => x._start ≤ y._start) l →
    List.Pairwise (fun x y : Doc => x._start ≤ y._start) l := by
  intro l
  induction l with
  | nil => intro _; simp
  | cons x xs ih =>
    intro h
    obtain ⟨h1, h2⟩ := List.chain'_cons'.mp h
    refine List.Pairwise.cons ?_ (ih h2)
    intro y hy
    cases xs with
    | nil => simp at hy
    | cons z zs =>
      have hxz : x._start ≤ z._start := h1 z rfl
      rcases List.mem_cons.mp hy with rfl | hy2
      · exact hxz
      · exact le_trans hxz (List.rel_of_pairwise_cons (ih h2) hy2)

theorem importDoc_ok (cf : Option String) (D : Doc) (A : List Act) (b : List Doc)
    (h : _activity_import_doc cf D A = Except.ok b) :
    ∃ stk, runActs (relevantActs D A) [D] = Except.ok stk ∧
      creationStep cf stk = Except.ok b := by
  unfold _activity_import_doc at h
  cases hr : runActs (relevantActs D A) [D] with
  | error e => simp only [hr] at h; exact Except.noConfusion h
  | ok stk => simp only [hr] at h; exact ⟨stk, rfl, h⟩

theorem relevantActs_pairwise (d : Doc) (A : List Act) :
    List.Pairwise (fun x y : Act => y.when ≤ x.when) (relevantActs d A) := by
  unfold relevantActs
  exact pairwise_sortActsDesc _

/-- C2: for every anchor document and every activity list, a non-empty batch
returned by _activity_import_doc, read oldest first (its reverse, i.e.
sorted by _start weakly ascending), partitions time with no gaps and no
overlaps: each document ends, with a loop-written instant, exactly where the
next one starts; and the newest document (the batch head) keeps the original
_end of the anchor. -/
theorem c2_partition (cf : Option String) (D : Doc) (A : List Act) (b : List Doc)
    (hok : _activity_import_doc cf D A = Except.ok b) (hne : b ≠ []) :
    List.Pairwise (fun x y : Doc => x._start ≤ y._start) b.reverse ∧
    List.Chain' (fun x y : Doc => x._end = EndVal.dt y._start) b.reverse ∧
    (b.map Doc._end).head? = some D._end := by
  obtain ⟨stk, hrun, hcs⟩ := importDoc_ok cf D A b hok
  have hinit : StkInv D D._start [D] := Or.inl ⟨rfl, rfl⟩
  obtain ⟨bnd2, hinv, hle, hall⟩ := runActs_inv D (relevantActs D A) D._start [D] stk hinit
    (relevantActs_pairwise D A)
    (fun a ha => ⟨le_of_lt (relevantActs_mem D A a ha).2.1, (relevantActs_mem D A a ha).2.1⟩)
    hrun
  obtain ⟨last0, rest, hstk, hbr⟩ := creationStep_ok cf stk b hcs hne
  have huni : ∃ t2, t2 ≤ last0._start ∧ b = ({ last0 with _start := t2 } :: rest).reverse := by
    rcases hbr with ⟨t, hg, hlt, hb⟩ | ⟨hother, hb⟩
    · exact ⟨t, le_of_lt hlt, hb⟩
    · exact ⟨last0._start, le_refl _, by rw [doc_set_start_self]; exact hb⟩
  obtain ⟨t2, ht2, rfl⟩ := huni
  rw [List.reverse_reverse]
  rcases hinv with ⟨h1, h2⟩ | ⟨hd, tl, s, hstk0, htl, hhs, hhe, hch, hgl, hsle⟩
  · rw [h1] at hstk
    injection hstk with e1 e2
    subst e1
    rw [← e2]
    refine ⟨by simp, by simp, ?_⟩
    simp
  · subst hstk0
    injection hstk with e1 e2
    subst e1
    subst e2
    have hch2 : List.Chain' docLe ({ hd with _start := t2 } :: tl) := by
      obtain ⟨h1', h2'⟩ := List.chain'_cons'.mp hch
      refine List.chain'_cons'.mpr ⟨?_, h2'⟩
      intro z hz
      exact ⟨(h1' z hz).1, le_trans ht2 (h1' z hz).2⟩
    refine ⟨?_, ?_, ?_⟩
    · exact chain'_start_pairwise _ (List.Chain'.imp (fun a b h => h.2) hch2)
    · exact List.Chain'.imp (fun a b h => h.1) hch2
    · rw [List.head?_map, List.head?_reverse]
      obtain ⟨z, zs, rfl⟩ := List.exists_cons_of_ne_nil htl
      rw [List.getLast?_cons_cons]
      rw [List.getLast?_cons_cons] at hgl
      rw [hgl]
      rfl

/-- Witness for c2_partition at the concrete anchor c2doc with two
activities. -/
theorem c2_witness :
    _activity_import_doc none c2doc c2acts = Except.ok c2out ∧ c2out ≠ [] ∧
    (List.Pairwise (fun x y : Doc => x._start ≤ y._start) c2out.reverse ∧
     List.Chain' (fun x y : Doc => x._end = EndVal.dt y._start) c2out.reverse ∧
     (c2out.map Doc._end).head? = some c2doc._end) :=
  ⟨rfl, by simp [c2out], c2_partition none c2doc c2acts c2out rfl (by simp [c2out])⟩

theorem doc_id_set_set (d : Doc) (i : Int) (h : d._id = none) :
    { ({ d with _id := some i }) with _id := none } = d := by
  rcases d with ⟨o, j, s, e, f, c⟩
  obtain rfl : j = none := h
  rfl

/-- C7: when the creation-instant lookup on the oldest produced document
succeeds, _activity_import_doc extends that document start backward exactly
when the creation instant is earlier than it; and when additionally no
activity produced a split (the loop output is still the lone anchor) and the
creation instant is not earlier, it returns an empty batch. -/
theorem c7_creation (cf : Option String) (D : Doc) (A : List Act) (last0 : Doc)
    (rest : List Doc) (t : Time)
    (hrun : runActs (relevantActs D A) [D] = Except.ok (last0 :: rest))
    (hc : getCreation cf last0 = some t) :
    (t < last0._start →
      _activity_import_doc cf D A = Except.ok (({ last0 with _start := t } :: rest).reverse)) ∧
    (¬ t < last0._start → rest = [] → _activity_import_doc cf D A = Except.ok []) := by
  have h1 : _activity_import_doc cf D A = creationStep cf (last0 :: rest) := by
    unfold _activity_import_doc
    rw [hrun]
  constructor
  · intro hlt
    rw [h1]
    simp only [creationStep, hc]
    rw [if_pos hlt]
  · intro hge hrest
    subst hrest
    rw [h1]
    simp only [creationStep, hc]
    rw [if_neg hge]
    rfl

/-- Witness for c7_creation: anchor with start 100, creation field value 50
and zero matching activities yields the size-1 batch with start 50. -/
theorem c7_witness :
    (50 : Time) < (100 : Time) ∧
    _activity_import_doc (some "created") c7doc [] =
      Except.ok [⟨1, none, 50, EndVal.null, [("created", vint 50), ("status", vint 1)], []⟩] := by
  have h := (c7_creation (some "created") c7doc [] c7doc [] 50 rfl rfl).1 (by decide)
  exact ⟨by decide, h⟩

/-- C10: when the creation-instant lookup on the oldest produced document
fails (no creation field, missing key or unparseable value), the exception
is swallowed and the batch built so far is returned, the empty-batch check
being skipped; in particular with zero matching activities the lone
unmodified anchor is returned as a size-1 batch, so the caller still removes
the stored document id and saves the identical document again. -/
theorem c10_creation_error (cf : Option String) (D : Doc) (A : List Act) (stk : List Doc)
    (last0 : Doc) (i : Int)
    (hrun : runActs (relevantActs D A) [D] = Except.ok stk)
    (hhead : stk.head? = some last0)
    (hc : getCreation cf last0 = none) :
    _activity_import_doc cf D A = Except.ok stk.reverse ∧
    (relevantActs D A = [] → D._id = none →
      _activity_import_doc cf D A = Except.ok [D] ∧
      _activity_import cf [{ D with _id := some i }] (fun _ => A) = Except.ok ([i], [D])) := by
  cases stk with
  | nil => simp at hhead
  | cons l rest =>
    have hl : l = last0 := by
      simp only [List.head?_cons, Option.some.injEq] at hhead
      exact hhead
    subst hl
    have h1 : _activity_import_doc cf D A = creationStep cf (l :: rest) := by
      unfold _activity_import_doc
      rw [hrun]
    have h2 : _activity_import_doc cf D A = Except.ok (l :: rest).reverse := by
      rw [h1]
      simp only [creationStep, hc]
    refine ⟨h2, ?_⟩
    intro hA0 hid
    rw [hA0] at hrun
    simp only [runActs, Except.ok.injEq] at hrun
    obtain ⟨e1, e2⟩ : D = l ∧ ([] : List Doc) = rest := by
      refine ⟨?_, ?_⟩ <;> injection hrun
    subst e1
    rw [← e2] at h2
    have h3 : _activity_import_doc cf D A = Except.ok [D] := h2
    refine ⟨h3, ?_⟩
    simp only [_activity_import]
    rw [doc_id_set_set D i hid]
    rw [h3]
    simp

/-- Witness for c10_creation_error: the cube defines a creation field that
the document lacks; the lone anchor comes back as a one-document batch and
the caller performs the remove and save for it. -/
theorem c10_witness :
    _activity_import_doc (some "created") c10doc [] = Except.ok [c10doc] ∧
    _activity_import (some "created") [{ c10doc with _id := some 9 }] (fun _ => []) =
      Except.ok ([9], [c10doc]) := by
  have h := c10_creation_error (some "created") c10doc [] [c10doc] c10doc 9 rfl rfl rfl
  exact h.2 rfl rfl

/-- C4: for scalar undo (not both removed and added list-valued),
_activity_backwards returns removed as the undone value regardless of the
inconsistency flag, and the flag is set iff the current value differs from
added; undo(5,3,5) gives 3 consistent, undo(5,3,7) gives 3 flagged, and in
the inconsistent case the reconstruction loop records _corrupted status 7 on
the produced document and completes normally. -/
theorem c4_scalar_undo (v r a : Value) (h : ¬(r.isList = true ∧ a.isList = true)) :
    _activity_backwards v r a = Except.ok (r, decide (v ≠ a)) ∧
    _activity_backwards (vint 5) (vint 3) (vint 5) = Except.ok (vint 3, false) ∧
    _activity_backwards (vint 5) (vint 3) (vint 7) = Except.ok (vint 3, true) ∧
    _activity_import_doc none c4doc c4acts = Except.ok c4out := by
  refine ⟨?_, rfl, rfl, rfl⟩
  cases r with
  | prim p => cases a <;> rfl
  | vlist rl =>
    cases a with
    | prim q => rfl
    | vlist al => exact absurd ⟨rfl, rfl⟩ h

/-- Witness for c4_scalar_undo at current 5, removed 3, added 7. -/
theorem c4_witness :
    ¬((vint 3).isList = true ∧ (vint 7).isList = true) ∧
    _activity_backwards (vint 5) (vint 3) (vint 7) =
      Except.ok (vint 3, decide (vint 5 ≠ vint 7)) := by
  have h := (c4_scalar_undo (vint 5) (vint 3) (vint 7) (by decide)).1
  exact ⟨by decide, h⟩

/-- C5 counterexample: for the scalar current value 5 with list-valued
removed and added, the undo branch raises (TypeError in Python, an error in
the model) instead of returning a collection with a flag, refuting the claim
as quantified over every current value. -/
theorem c5_counterexample :
    _activity_backwards (vint 5) (Value.vlist [Prim.pstr "c"]) (Value.vlist [Prim.pstr "a"]) =
      Except.error "TypeError: argument of type int is not iterable" ∧
    (_activity_backwards (vint 5) (Value.vlist [Prim.pstr "c"])
      (Value.vlist [Prim.pstr "a"])).toOption = none :=
  ⟨rfl, rfl⟩

/-- C5 amended: for every current value that is None (treated as the empty
collection) or a list, with list-valued removed and added, the undo removes
one occurrence of each present element of added, flags inconsistency when
some element of added is absent, then appends every element of removed,
exactly as the spec words it (undoListSpec); the two concrete instances of
the claim follow. -/
theorem c5_list_undo (cur : Value) (vl rl al : List Prim)
    (hcur : (cur = Value.prim Prim.pnone ∧ vl = []) ∨ cur = Value.vlist vl) :
    _activity_backwards cur (Value.vlist rl) (Value.vlist al) =
      Except.ok (Value.vlist (undoListSpec vl rl al).1, (undoListSpec vl rl al).2) ∧
    _activity_backwards (Value.vlist [Prim.pstr "a", Prim.pstr "b"]) (Value.vlist [Prim.pstr "c"])
      (Value.vlist [Prim.pstr "a"]) =
      Except.ok (Value.vlist [Prim.pstr "b", Prim.pstr "c"], false) ∧
    _activity_backwards (Value.vlist [Prim.pstr "a", Prim.pstr "b"]) (Value.vlist [Prim.pstr "c"])
      (Value.vlist [Prim.pstr "x"]) =
      Except.ok (Value.vlist [Prim.pstr "a", Prim.pstr "b", Prim.pstr "c"], true) := by
  refine ⟨?_, rfl, rfl⟩
  rcases hcur with ⟨rfl, rfl⟩ | rfl
  · rfl
  · rfl

/-- Witness for c5_list_undo at current [a, b], removed [c], added [a]. -/
theorem c5_witness :
    ((Value.vlist [Prim.pstr "a", Prim.pstr "b"] = Value.prim Prim.pnone ∧
        [Prim.pstr "a", Prim.pstr "b"] = ([] : List Prim)) ∨
      Value.vlist [Prim.pstr "a", Prim.pstr "b"] = Value.vlist [Prim.pstr "a", Prim.pstr "b"]) ∧
    _activity_backwards (Value.vlist [Prim.pstr "a", Prim.pstr "b"]) (Value.vlist [Prim.pstr "c"])
      (Value.vlist [Prim.pstr "a"]) =
      Except.ok
        (Value.vlist (undoListSpec [Prim.pstr "a", Prim.pstr "b"] [Prim.pstr "c"] [Prim.pstr "a"]).1,
         (undoListSpec [Prim.pstr "a", Prim.pstr "b"] [Prim.pstr "c"] [Prim.pstr "a"]).2) := by
  have h := (c5_list_undo (Value.vlist [Prim.pstr "a", Prim.pstr "b"])
    [Prim.pstr "a", Prim.pstr "b"] [Prim.pstr "c"] [Prim.pstr "a"] (Or.inr rfl)).1
  exact ⟨Or.inr rfl, h⟩

/-- C1 counterexample: on the exact end-to-end scenario of the claim the
code returns the batch with both starts at 150 (the anchor start is lowered
to the activity instant and the older stub is degenerate), so no returned
document has start 200, while the claimed batch contains one. -/
theorem c1_counterexample :
    _activity_import_doc none c1doc c1acts = Except.ok [c1outNewer, c1outOlder] ∧
    (200 : Time) ∉ [c1outNewer, c1outOlder].map Doc._start :=
  ⟨rfl, by decide⟩

/-- C1 amended: for the anchor oid 1, start 200, end None, status open and
the single activity (150, status, new, open), the reconstruction returns
exactly two documents, newest first: the anchor with its start lowered to
150 keeping end None and status open, and a degenerate [150, 150) stub with
status new awaiting a creation-instant extension. -/
theorem c1_batch :
    _activity_import_doc none c1doc c1acts = Except.ok [c1outNewer, c1outOlder] := rfl

/-- C6: when the two relevant activities carry the identical instant, the
second one amends in place the document whose end already sits at that
instant: the returned batch holds exactly two documents (one additional
version boundary, not two), the newest keeping the anchor end, the older one
ending at the shared instant. -/
theorem c6_merge (cf : Option String) (D : Doc) (A : List Act) (a1 a2 : Act) (b : List Doc)
    (hw : a2.when = a1.when)
    (hrel : relevantActs D A = [a1, a2])
    (hok : _activity_import_doc cf D A = Except.ok b) :
    b.length = 2 ∧ b.map Doc._end = [D._end, EndVal.dt a2.when] := by
  obtain ⟨stk, hrun, hcs⟩ := importDoc_ok cf D A b hok
  rw [hrel] at hrun
  obtain ⟨stk1, h1, hrest⟩ := runActs_cons_ok a1 [a2] [D] stk hrun
  obtain ⟨stk2, h2, hrest2⟩ := runActs_cons_ok a2 [] stk1 stk hrest
  simp only [runActs, Except.ok.injEq] at hrest2
  subst hrest2
  obtain ⟨last0, rest0, hstk, hbr⟩ := stepAct_ok [D] a1 stk1 h1
  injection hstk with e1 e2
  subst e1
  subst e2
  rcases hbr with ⟨l2, rest2, he, hr, hs⟩ | ⟨hne, hs⟩
  · exact absurd hr (by simp)
  · obtain ⟨cur, nv, inc, hl, hb, rfl⟩ := stepUndo_ok _ _ _ _ _ hs
    obtain ⟨last0b, rest0b, hstk2, hbr2⟩ := stepAct_ok _ a2 stk2 h2
    injection hstk2 with f1 f2
    subst f1
    subst f2
    rcases hbr2 with ⟨l2, rest2, he2, hr2, hs2⟩ | ⟨hne2, hs2⟩
    · injection hr2 with g1 g2
      subst g1
      subst g2
      obtain ⟨cur2, nv2, inc2, hl2, hb2, rfl⟩ := stepUndo_ok _ _ _ _ _ hs2
      simp only [creationStep] at hcs
      cases hg : getCreation cf (applyUndo a2 (applyUndo a1
          { D with _id := none, _start := a1.when, _end := EndVal.dt a1.when } nv inc) nv2 inc2) with
      | none =>
        simp only [hg, Except.ok.injEq] at hcs
        subst hcs
        refine ⟨by simp, ?_⟩
        simp only [List.reverse_cons, List.reverse_nil, List.nil_append, List.cons_append,
          List.map_cons, List.map_nil, applyUndo_end]
        rw [hw]
      | some t =>
        simp only [hg] at hcs
        by_cases hlt : t < (applyUndo a2 (applyUndo a1
            { D with _id := none, _start := a1.when, _end := EndVal.dt a1.when } nv inc) nv2 inc2)._start
        · rw [if_pos hlt] at hcs
          replace hcs := (Except.ok.inj hcs).symm
          subst hcs
          refine ⟨by simp, ?_⟩
          simp only [List.reverse_cons, List.reverse_nil, List.nil_append, List.cons_append,
            List.map_cons, List.map_nil, applyUndo_end]
          rw [hw]
        · rw [if_neg hlt] at hcs
          simp only [List.isEmpty_cons, if_neg] at hcs
          replace hcs := (Except.ok.inj hcs).symm
          subst hcs
          refine ⟨by simp, ?_⟩
          simp only [List.reverse_cons, List.reverse_nil, List.nil_append, List.cons_append,
            List.map_cons, List.map_nil, applyUndo_end]
          rw [hw]
    · exact absurd (by rw [applyUndo_end, hw]) hne2

/-- Witness for c6_merge: two activities on the fields a and b of c6doc with
the identical instant 100 produce exactly two documents. -/
theorem c6_witness :
    (⟨100, "a", vint 9, vint 10⟩ : Act).when = (⟨100, "b", vint 19, vint 20⟩ : Act).when ∧
    relevantActs c6doc c6acts = [⟨100, "b", vint 19, vint 20⟩, ⟨100, "a", vint 9, vint 10⟩] ∧
    _activity_import_doc none c6doc c6acts = Except.ok c6out ∧
    (c6out.length = 2 ∧ c6out.map Doc._end = [c6doc._end, EndVal.dt 100]) := by
  have h := c6_merge none c6doc c6acts ⟨100, "b", vint 19, vint 20⟩ ⟨100, "a", vint 9, vint 10⟩
    c6out rfl rfl rfl
  exact ⟨rfl, rfl, rfl, h⟩

/-- C8 counterexample: in the batch handed to the store save, every entry,
the one that retains the anchor identity included, has its store id
stripped; the anchor id 42 survives only in the remove list, refuting the
claim that the anchor segment still carries it. -/
theorem c8_counterexample :
    _activity_import none [c8doc] (fun _ => c8acts) = Except.ok ([42], c8out) ∧
    c8out.map Doc._id = [none, none] ∧ c8doc._id = some 42 :=
  ⟨rfl, rfl, rfl⟩

/-- C8 amended: every document in the saved batch, the anchor segment
included, carries no store id (the caller pops the anchor id before
reconstruction and copies are created without one); every id in the remove
list is the store id of one of the processed anchors. -/
theorem c8_ids (cf : Option String) (docs : List Doc) (acts : Int → List Act)
    (rids : List Int) (saves : List Doc)
    (h : _activity_import cf docs acts = Except.ok (rids, saves)) :
    (∀ d ∈ saves, d._id = none) ∧ (∀ j ∈ rids, ∃ d ∈ docs, d._id = some j) := by
  induction docs generalizing rids saves with
  | nil =>
    simp only [_activity_import, Except.ok.injEq, Prod.mk.injEq] at h
    obtain ⟨h1, h2⟩ := h
    subst h1
    subst h2
    exact ⟨by simp, by simp⟩
  | cons d rest ih =>
    simp only [_activity_import] at h
    cases hi : d._id with
    | none => simp only [hi] at h; exact Except.noConfusion h
    | some i =>
      simp only [hi] at h
      cases hu : _activity_import_doc cf { d with _id := none } (acts d._oid) with
      | error e => simp only [hu] at h; exact Except.noConfusion h
      | ok updates =>
        simp only [hu] at h
        cases hr : _activity_import cf rest acts with
        | error e => simp only [hr] at h; exact Except.noConfusion h
        | ok p =>
          obtain ⟨rids0, saves0⟩ := p
          simp only [hr] at h
          have hupd : ∀ x ∈ updates, x._id = none := by
            intro x hx
            obtain ⟨stk, hrun, hcs⟩ := importDoc_ok cf { d with _id := none } (acts d._oid)
              updates hu
            have hstk : ∀ x ∈ stk, x._id = none := by
              refine runActs_ids _ _ _ hrun ?_
              intro y hy
              simp only [List.mem_cons, List.not_mem_nil, or_false] at hy
              subst hy
              rfl
            obtain ⟨l0, rest2, hstk2, hbr⟩ := creationStep_ok cf stk updates hcs
              (by intro hcon; rw [hcon] at hx; simp at hx)
            rcases hbr with ⟨t, hg, hlt, hbEq⟩ | ⟨hother, hbEq⟩
            · subst hbEq
              rw [List.mem_reverse] at hx
              rcases List.mem_cons.mp hx with rfl | hmem
              · show l0._id = none
                exact hstk l0 (hstk2 ▸ (by simp))
              · exact hstk x (hstk2 ▸ (by simp [hmem]))
            · subst hbEq
              rw [List.mem_reverse] at hx
              exact hstk x (hstk2 ▸ hx)
          by_cases hemp : updates.isEmpty
          · rw [if_pos hemp] at h
            have hpair := Except.ok.inj h
            injection hpair with h1 h2
            subst h1
            subst h2
            obtain ⟨ih1, ih2⟩ := ih rids0 saves0 hr
            refine ⟨ih1, ?_⟩
            intro j hj
            obtain ⟨d2, hd2, hd2id⟩ := ih2 j hj
            exact ⟨d2, by simp [hd2], hd2id⟩
          · rw [if_neg hemp] at h
            have hpair := Except.ok.inj h
            injection hpair with h1 h2
            subst h1
            subst h2
            obtain ⟨ih1, ih2⟩ := ih rids0 saves0 hr
            constructor
            · intro x hx
              rcases List.mem_append.mp hx with hx | hx
              · exact hupd x hx
              · exact ih1 x hx
            · intro j hj
              rcases List.mem_cons.mp hj with rfl | hj
              · exact ⟨d, by simp, hi⟩
              · obtain ⟨d2, hd2, hd2id⟩ := ih2 j hj
                exact ⟨d2, by simp [hd2], hd2id⟩

/-- Witness for c8_ids at the concrete C8 scenario. -/
theorem c8_witness :
    _activity_import none [c8doc] (fun _ => c8acts) = Except.ok ([42], c8out) ∧
    (∀ d ∈ c8out, d._id = none) ∧
    (∀ j ∈ [(42 : Int)], ∃ d ∈ [c8doc], d._id = some j) := by
  have h := c8_ids none [c8doc] (fun _ => c8acts) [42] c8out rfl
  exact ⟨rfl, h.1, h.2⟩

theorem getCreation_congr (cf : Option String) (d e : Doc) (h : d.fields = e.fields) :
    getCreation cf d = getCreation cf e := by
  unfold getCreation
  cases cf with
  | none => rfl
  | some c => rw [h]

theorem relevantActs_mem_of (d : Doc) (A : List Act) (a : Act) (ha : a ∈ A)
    (h1 : a.when < d._start) (h2 : (lookupF a.field d.fields).isSome = true) :
    a ∈ relevantActs d A := by
  unfold relevantActs
  rw [mem_sortActsDesc]
  exact List.mem_filter.mpr ⟨ha, by simp [h1, h2]⟩

theorem stkInv_head_start (D : Doc) (bnd : Time) (stk : List Doc) (l0 : Doc) (rest : List Doc)
    (hinv : StkInv D bnd stk) (hstk : stk = l0 :: rest) : l0._start = bnd := by
  rcases hinv with ⟨h1, h2⟩ | ⟨hd, tl, s, hstk0, _, hhs, _, _, _, _⟩
  · rw [h1] at hstk
    injection hstk with e1 _
    rw [← e1]
    exact h2.symm
  · rw [hstk0] at hstk
    injection hstk with e1 _
    rw [← e1]
    exact hhs

/-- C3 counterexample: a cube without a usable creation field is not
idempotent: the first run on an anchor with no matching activities returns
the anchor as a size-1 batch, and the second run on that produced document
returns the same non-empty batch again, the caller removing the stored id
and saving the identical document once more. -/
theorem c3_counterexample :
    _activity_import_doc none c10doc [] = Except.ok [c10doc] ∧
    (Except.ok [c10doc] : Except String (List Doc)) ≠ Except.ok [] ∧
    _activity_import none [{ c10doc with _id := some 7 }] (fun _ => []) =
      Except.ok ([7], [c10doc]) ∧
    (Except.ok ([7], [c10doc]) : Except String (List Int × List Doc)) ≠ Except.ok ([], []) :=
  ⟨rfl, by simp, rfl, by simp⟩

/-- C3 amended: reconstruction is idempotent whenever the creation-instant
lookup on the oldest produced document succeeds: if a first run on an
id-less anchor returns a non-empty batch, then a second run anchored at the
oldest produced document (the last, minimum-start element of that batch)
with the unchanged activity list returns an empty batch, and the per-chunk
loop performs no remove and no save for that oid. -/
theorem c3_idempotent (cf : Option String) (D : Doc) (A : List Act) (b : List Doc)
    (last0 : Doc) (i : Int)
    (hid : D._id = none)
    (hok : _activity_import_doc cf D A = Except.ok b)
    (hlast : b.getLast? = some last0)
    (hc : (getCreation cf last0).isSome = true) :
    _activity_import_doc cf last0 A = Except.ok [] ∧
    _activity_import cf [{ last0 with _id := some i }] (fun _ => A) =
      Except.ok ([], []) := by
  have hbne : b ≠ [] := by
    intro hcon
    rw [hcon] at hlast
    simp at hlast
  obtain ⟨stk, hrun, hcs⟩ := importDoc_ok cf D A b hok
  have hinit : StkInv D D._start [D] := Or.inl ⟨rfl, rfl⟩
  obtain ⟨bnd2, hinv, hle, hall⟩ := runActs_inv D (relevantActs D A) D._start [D] stk hinit
    (relevantActs_pairwise D A)
    (fun a ha => ⟨le_of_lt (relevantActs_mem D A a ha).2.1, (relevantActs_mem D A a ha).2.1⟩)
    hrun
  obtain ⟨l0, rest, hstk, hbr⟩ := creationStep_ok cf stk b hcs hbne
  -- uniform description of the batch with the key creation fact
  obtain ⟨t2, hbEq, ht2le, hkey⟩ :
      ∃ t2, b = ({ l0 with _start := t2 } :: rest).reverse ∧ t2 ≤ l0._start ∧
        (∀ u, getCreation cf l0 = some u → ¬ u < t2) := by
    rcases hbr with ⟨t, hg, hlt, hbEq⟩ | ⟨hother, hbEq⟩
    · refine ⟨t, hbEq, le_of_lt hlt, ?_⟩
      intro u hu
      rw [hg] at hu
      injection hu with hu
      rw [← hu]
      exact lt_irrefl t
    · refine ⟨l0._start, by rw [doc_set_start_self]; exact hbEq, le_refl _, ?_⟩
      rcases hother with ⟨t, hg, hnlt, _⟩ | hg
      · intro u hu
        rw [hg] at hu
        injection hu with hu
        rw [← hu]
        exact hnlt
      · intro u hu
        rw [hg] at hu
        exact Option.noConfusion hu
  have hlast0 : last0 = { l0 with _start := t2 } := by
    rw [hbEq, List.getLast?_reverse, List.head?_cons] at hlast
    exact (Option.some.inj hlast).symm
  subst hlast0
  have hgl0 : getCreation cf { l0 with _start := t2 } = getCreation cf l0 :=
    getCreation_congr cf _ l0 rfl
  obtain ⟨t, ht⟩ := Option.isSome_iff_exists.mp hc
  have htl0 : getCreation cf l0 = some t := by rw [← hgl0]; exact ht
  have hnlt : ¬ t < t2 := hkey t htl0
  have hhead : l0._start = bnd2 := stkInv_head_start D bnd2 stk l0 rest hinv hstk
  have hone : ∀ d ∈ [D], SameKeys D d := by
    intro d hd
    simp only [List.mem_cons, List.not_mem_nil, or_false] at hd
    subst hd
    intro f
    rfl
  have honeid : ∀ d ∈ [D], d._id = none := by
    intro d hd
    simp only [List.mem_cons, List.not_mem_nil, or_false] at hd
    subst hd
    exact hid
  have hkeys : SameKeys D l0 :=
    runActs_keys D (relevantActs D A) [D] stk hrun hone l0 (hstk ▸ (by simp))
  have hids0 : l0._id = none :=
    runActs_ids (relevantActs D A) [D] stk hrun honeid l0 (hstk ▸ (by simp))
  -- second-run activity filter is empty
  have hrel2 : relevantActs { l0 with _start := t2 } A = [] := by
    refine relevantActs_nil _ A ?_
    intro a ha
    intro hcon
    obtain ⟨hwhen, hsome⟩ := hcon
    have hsomeD : (lookupF a.field D.fields).isSome = true := by
      rw [← hkeys a.field]
      exact hsome
    by_cases hwD : a.when < D._start
    · have hmem := relevantActs_mem_of D A a ha hwD hsomeD
      have hge := hall a hmem
      have : ({ l0 with _start := t2 } : Doc)._start ≤ a.when :=
        le_trans (le_trans ht2le (le_of_eq hhead)) hge
      exact absurd hwhen (not_lt.mpr this)
    · have hge : D._start ≤ a.when := not_lt.mp hwD
      have : ({ l0 with _start := t2 } : Doc)._start ≤ a.when :=
        le_trans (le_trans ht2le (le_of_eq hhead)) (le_trans hle hge)
      exact absurd hwhen (not_lt.mpr this)
  have hrun2 : runActs (relevantActs { l0 with _start := t2 } A) [{ l0 with _start := t2 }] =
      Except.ok [{ l0 with _start := t2 }] := by
    rw [hrel2]
    rfl
  have hsecond : _activity_import_doc cf { l0 with _start := t2 } A = Except.ok [] := by
    unfold _activity_import_doc
    rw [hrun2]
    simp only [creationStep, ht]
    rw [if_neg hnlt]
    rfl
  refine ⟨hsecond, ?_⟩
  simp only [_activity_import]
  rw [doc_id_set_set { l0 with _start := t2 } i hids0]
  rw [hsecond]
  rfl

/-- Witness for c3_idempotent: first run extends the anchor start to the
creation instant 50; the second run on the produced document returns the
empty batch and the per-chunk loop mutates nothing. -/
theorem c3_witness :
    c3doc._id = none ∧
    _activity_import_doc (some "created") c3doc [] = Except.ok [c3out] ∧
    [c3out].getLast? = some c3out ∧
    (getCreation (some "created") c3out).isSome = true ∧
    (_activity_import_doc (some "created") c3out [] = Except.ok [] ∧
     _activity_import (some "created") [{ c3out with _id := some 5 }] (fun _ => []) =
       Except.ok ([], [])) := by
  have h := c3_idempotent (some "created") c3doc [] [c3out] c3out 5 rfl rfl rfl rfl
  exact ⟨rfl, rfl, rfl, rfl, h⟩

end Metrique
